import Mathlib

/-!
Shallow embedding of the locale resolution core of the `sys-locale` crate
(`src/unix.rs` and the fallback provider of `src/lib.rs`), together with
theorems settling the specification claims about it.

Conventions of the embedding:
* Rust `String` / `&str` values become Lean `String` (a list of Unicode
  scalar values, matching Rust's `chars()` iteration).
* The process environment, accessed in the source through the `EnvAccess`
  trait (`fn get(&self, key) -> Option<String>`), becomes a function
  `String → Option String`; `None` covers both an absent variable and an
  invalid-unicode value, exactly as `env::var(key).ok()` does.
* Rust iterator pipelines become the corresponding `List` operations.
-/

/-- The environment-variable access abstraction of `src/unix.rs`
(`trait EnvAccess { fn get(&self, key) -> Option<String>; }`). -/
def EnvAccess : Type := String → Option String

/-- `const LANGUAGE: &str = "LANGUAGE";` -/
def LANGUAGE : String := "LANGUAGE"

/-- `const LC_ALL: &str = "LC_ALL";` -/
def LC_ALL : String := "LC_ALL"

/-- `const LC_MESSAGES: &str = "LC_MESSAGES";` -/
def LC_MESSAGES : String := "LC_MESSAGES"

/-- `const LANG: &str = "LANG";` -/
def LANG : String := "LANG"

/-- `posix_to_bcp47` from `src/unix.rs`:
`locale.chars().take_while(|&c| c != '.' && c != '@').map(|c| if c == '_' { '-' } else { c }).collect()`. -/
def posix_to_bcp47 (locale : String) : String :=
  String.mk
    ((locale.data.takeWhile (fun c => c != '.' && c != '@')).map
      (fun c => if c == '_' then '-' else c))

/-- Rust `str::split(sep)` on a separator character, at the level of
character lists: the maximal runs between occurrences of `sep`, keeping
empty runs, with `n` separators yielding `n + 1` parts. -/
def splitCh (sep : Char) : List Char → List (List Char)
  | [] => [[]]
  | c :: cs =>
    if c = sep then [] :: splitCh sep cs
    else
      match splitCh sep cs with
      | [] => [[c]]
      | p :: ps => (c :: p) :: ps

/-- `val.split(':')` from the `LANGUAGE` branch of `_get`. -/
def splitColon (val : String) : List String :=
  (splitCh ':' val.data).map String.mk

/-- `_get` from `src/unix.rs`: collect locales from `LANGUAGE` (split on
`':'`), then `LC_ALL`, `LC_MESSAGES` and `LANG`, converting each with
`posix_to_bcp47` and pushing it only when not already contained. The
source's `locales.contains(&locale)` is `String` equality, written here as
list membership. -/
def _get (env : EnvAccess) : List String :=
  let locales : List String := []
  let locales :=
    match (env LANGUAGE).filter (fun val => !val.isEmpty) with
    | some val =>
      (splitColon val).foldl
        (fun locales part =>
          let locale := posix_to_bcp47 part
          if locale ∈ locales then locales else locales ++ [locale])
        locales
    | none => locales
  [LC_ALL, LC_MESSAGES, LANG].foldl
    (fun locales k =>
      match (env k).filter (fun val => !val.isEmpty) with
      | some val =>
        let locale := posix_to_bcp47 val
        if locale ∈ locales then locales else locales ++ [locale]
      | none => locales)
    locales

/-- The fallback provider of `src/lib.rs` (lines 53-58), compiled in when
the target is neither unix, nor windows, nor wasm-with-js:
`pub fn get() -> Option<String> { None }`. -/
def provider_fallback_get : Option String := none

/-- `get_locale` of `src/lib.rs` on a target with no platform provider:
`pub fn get_locale() -> Option<String> { provider::get() }`. -/
def get_locale_fallback : Option String := provider_fallback_get

/-! Specification-side vocabulary used to state the claims. -/

/-- The push-if-absent step of `_get`, as a standalone function. -/
def insertUnique (locales : List String) (locale : String) : List String :=
  if locale ∈ locales then locales else locales ++ [locale]

/-- First-seen deduplication of a list, by folding `insertUnique`. -/
def dedupFirst (l : List String) : List String :=
  l.foldl insertUnique []

/-- The normalized values contributed by the `LANGUAGE` variable, in the
order the source traverses them: the colon-separated sub-values of its
value (when present and non-empty), each sent through `posix_to_bcp47`. -/
def languageContribution (env : EnvAccess) : List String :=
  match (env LANGUAGE).filter (fun val => !val.isEmpty) with
  | some val => (splitColon val).map posix_to_bcp47
  | none => []

/-- The normalized value contributed by a single-valued variable: one
element when the variable is present and non-empty, nothing otherwise. -/
def singleContribution (env : EnvAccess) (key : String) : List String :=
  match (env key).filter (fun val => !val.isEmpty) with
  | some val => [posix_to_bcp47 val]
  | none => []

/-- All normalized candidate tags in the precedence traversal order of
`_get`: `LANGUAGE` (sub-values in order), then `LC_ALL`, then
`LC_MESSAGES`, then `LANG`. -/
def candidates (env : EnvAccess) : List String :=
  languageContribution env ++ singleContribution env LC_ALL
    ++ singleContribution env LC_MESSAGES ++ singleContribution env LANG

/-- First-seen filtering with an explicit seen-set: an element is kept
exactly when it has not been seen before, and each kept element stands at
the position of its first sighting. -/
def keepFirstAux : List String → List String → List String
  | [], _ => []
  | x :: xs, seen =>
    if x ∈ seen then keepFirstAux xs seen
    else x :: keepFirstAux xs (seen ++ [x])

/-- First-seen filtering of a list starting from nothing seen. -/
def keepFirst (l : List String) : List String :=
  keepFirstAux l []

/-- The character filter applied by `posix_to_bcp47`: keep everything
before the first `'.'` or `'@'`. -/
def keepCh (c : Char) : Bool := c != '.' && c != '@'

/-- The character substitution applied by `posix_to_bcp47`: `'_'` becomes
`'-'`, anything else is unchanged. -/
def replCh (c : Char) : Char := if c == '_' then '-' else c

/-- The normalizer as the claim words it, by explicit recursion: walk the
characters, stop at the first `'.'` or `'@'`, replace `'_'` by `'-'`. -/
def prefixRepl : List Char → List Char
  | [] => []
  | c :: cs =>
    if c = '.' ∨ c = '@' then []
    else (if c = '_' then '-' else c) :: prefixRepl cs

/-- The normalizer as described by the specification's words. -/
def bcp47_spec (s : String) : String := String.mk (prefixRepl s.data)

/-- The single-best scheme exactly as claim C5 states it: `LC_ALL`, then
`LC_CTYPE`, then `LANG`, returning the normalized first non-empty value. -/
def resolve_best_claimed (env : EnvAccess) : Option String :=
  match (env LC_ALL).filter (fun val => !val.isEmpty) with
  | some val => some (posix_to_bcp47 val)
  | none =>
    match (env "LC_CTYPE").filter (fun val => !val.isEmpty) with
    | some val => some (posix_to_bcp47 val)
    | none =>
      match (env LANG).filter (fun val => !val.isEmpty) with
      | some val => some (posix_to_bcp47 val)
      | none => none

/-- Overriding one key of an environment mapping. -/
def setVar (env : EnvAccess) (key : String) (v : Option String) : EnvAccess :=
  fun k => if k = key then v else env k

/-- The empty environment: every variable absent. -/
def emptyEnv : EnvAccess := fun _ => none

/-- Characters that survive normalization: not `'.'`, `'@'` or `'_'`. -/
def goodCh (c : Char) : Bool := !(c == '.' || c == '@' || c == '_')

/-! Helper lemmas about the normalizer at the character level. -/

lemma posix_data (s : String) :
    (posix_to_bcp47 s).data = (s.data.takeWhile keepCh).map replCh := rfl

lemma keepCh_replCh (c : Char) (h : keepCh c = true) : keepCh (replCh c) = true := by
  by_cases h' : c = '_'
  · subst h'; decide
  · simpa [replCh, h'] using h

lemma replCh_replCh (c : Char) : replCh (replCh c) = replCh c := by
  by_cases h : c = '_'
  · subst h; decide
  · simp [replCh, h]

lemma goodCh_replCh (c : Char) (h : keepCh c = true) : goodCh (replCh c) = true := by
  by_cases h' : c = '_'
  · subst h'; decide
  · simp only [keepCh, Bool.and_eq_true, bne_iff_ne, ne_eq] at h
    simp [replCh, goodCh, h', h.1, h.2]

lemma takeWhile_map_idem (l : List Char) :
    (((l.takeWhile keepCh).map replCh).takeWhile keepCh).map replCh
      = (l.takeWhile keepCh).map replCh := by
  induction l with
  | nil => rfl
  | cons c cs ih =>
    by_cases h : keepCh c = true
    · simp only [List.takeWhile_cons, h, if_true, List.map_cons,
        keepCh_replCh c h, replCh_replCh, ih]
    · simp only [List.takeWhile_cons, h, if_false, Bool.false_eq_true, List.map_nil,
        List.takeWhile_nil]

lemma prefixRepl_eq (l : List Char) :
    (l.takeWhile keepCh).map replCh = prefixRepl l := by
  induction l with
  | nil => rfl
  | cons c cs ih =>
    by_cases h : c = '.' ∨ c = '@'
    · have hk : keepCh c = false := by
        rcases h with h | h <;> subst h <;> decide
      simp [prefixRepl, List.takeWhile_cons, hk, h]
    · push_neg at h
      have hk : keepCh c = true := by
        simp [keepCh, h.1, h.2]
      have hor : ¬(c = '.' ∨ c = '@') := by
        push_neg
        exact h
      simp [prefixRepl, List.takeWhile_cons, hk, hor, replCh, ih]

lemma noSpecial_map (l : List Char) (h : ∀ c ∈ l, c ≠ '_' ∧ c ≠ '.' ∧ c ≠ '@') :
    (l.takeWhile keepCh).map replCh = l := by
  induction l with
  | nil => rfl
  | cons c cs ih =>
    obtain ⟨h1, h2, h3⟩ := h c (List.mem_cons_self c cs)
    have hk : keepCh c = true := by simp [keepCh, h2, h3]
    have : (cs.takeWhile keepCh).map replCh = cs :=
      ih (fun d hd => h d (List.mem_cons_of_mem c hd))
    simp [List.takeWhile_cons, hk, replCh, h1, this]

lemma mk_data (s : String) : String.mk s.data = s := by cases s; rfl

/-- C2: `posix_to_bcp47` keeps exactly the prefix of its input up to the
first `'.'` or `'@'`, replacing every `'_'` there by `'-'` (this is
`bcp47_spec`, the specification's wording as a recursion), and an input
containing none of `'_'`, `'.'`, `'@'` is returned unchanged. Totality
holds by construction: the embedding is a total Lean function, mirroring
the Rust function which has no error path. -/
theorem posix_to_bcp47_correct (s : String) :
    posix_to_bcp47 s = bcp47_spec s ∧
      ((∀ c ∈ s.data, c ≠ '_' ∧ c ≠ '.' ∧ c ≠ '@') → posix_to_bcp47 s = s) := by
  constructor
  · exact congrArg String.mk (prefixRepl_eq s.data)
  · intro h
    calc posix_to_bcp47 s = String.mk s.data := congrArg String.mk (noSpecial_map s.data h)
      _ = s := mk_data s

/-- Witness for C2 at the concrete input "en-US". -/
theorem posix_to_bcp47_correct_witness :
    posix_to_bcp47 ("en-US") = bcp47_spec ("en-US") ∧ posix_to_bcp47 ("en-US") = ("en-US") :=
  ⟨(posix_to_bcp47_correct ("en-US")).1,
    (posix_to_bcp47_correct ("en-US")).2 (by decide)⟩

/-- C6: the normalizer is idempotent, since its output never contains a
further `'.'`, `'@'` or `'_'`. -/
theorem posix_to_bcp47_idempotent (x : String) :
    posix_to_bcp47 (posix_to_bcp47 x) = posix_to_bcp47 x :=
  congrArg String.mk (takeWhile_map_idem x.data)

/-! Helper lemmas about the structure of the resolver. -/

/-- The body of the single-variable phase of the resolver, as a function. -/
def varStep (env : EnvAccess) (locales : List String) (k : String) : List String :=
  match (env k).filter (fun val => !val.isEmpty) with
  | some val => insertUnique locales (posix_to_bcp47 val)
  | none => locales

/-- The state of the resolver after the `LANGUAGE` phase. -/
def langPart (env : EnvAccess) : List String :=
  match (env LANGUAGE).filter (fun val => !val.isEmpty) with
  | some val =>
    (splitColon val).foldl (fun locales part => insertUnique locales (posix_to_bcp47 part)) []
  | none => []

lemma get_unfold (env : EnvAccess) :
    _get env = [LC_ALL, LC_MESSAGES, LANG].foldl (varStep env) (langPart env) := rfl

lemma varStep_eq (env : EnvAccess) (acc : List String) (k : String) :
    varStep env acc k = (singleContribution env k).foldl insertUnique acc := by
  unfold varStep singleContribution
  cases (env k).filter (fun val => !val.isEmpty) <;> simp [List.foldl]

lemma langPart_eq (env : EnvAccess) :
    langPart env = (languageContribution env).foldl insertUnique [] := by
  unfold langPart languageContribution
  cases (env LANGUAGE).filter (fun val => !val.isEmpty) <;> simp [List.foldl_map]

lemma get_eq_dedupFirst (env : EnvAccess) :
    _get env = dedupFirst (candidates env) := by
  rw [get_unfold]
  simp only [List.foldl_cons, List.foldl_nil]
  rw [varStep_eq, varStep_eq, varStep_eq, langPart_eq]
  unfold dedupFirst candidates
  rw [List.foldl_append, List.foldl_append, List.foldl_append]

lemma foldl_insertUnique_eq (l : List String) :
    ∀ acc, l.foldl insertUnique acc = acc ++ keepFirstAux l acc := by
  induction l with
  | nil => intro acc; simp [keepFirstAux]
  | cons x xs ih =>
    intro acc
    by_cases hx : x ∈ acc
    · simp [List.foldl_cons, insertUnique, hx, keepFirstAux, ih acc]
    · simp [List.foldl_cons, insertUnique, hx, keepFirstAux, ih (acc ++ [x])]

lemma nodup_foldl_insertUnique (l : List String) :
    ∀ acc, acc.Nodup → (l.foldl insertUnique acc).Nodup := by
  induction l with
  | nil => intro acc h; simpa using h
  | cons x xs ih =>
    intro acc h
    by_cases hx : x ∈ acc
    · simpa [List.foldl_cons, insertUnique, hx] using ih acc h
    · have hnd : (acc ++ [x]).Nodup :=
        h.append (List.nodup_singleton x) (by simp [List.disjoint_singleton, hx])
      simpa [List.foldl_cons, insertUnique, hx] using ih (acc ++ [x]) hnd

lemma mem_foldl_insertUnique (l : List String) :
    ∀ acc x, x ∈ l.foldl insertUnique acc → x ∈ acc ∨ x ∈ l := by
  induction l with
  | nil => intro acc x h; exact Or.inl (by simpa using h)
  | cons y ys ih =>
    intro acc x h
    rw [List.foldl_cons] at h
    rcases ih (insertUnique acc y) x h with h' | h'
    · unfold insertUnique at h'
      by_cases hy : y ∈ acc
      · rw [if_pos hy] at h'
        exact Or.inl h'
      · rw [if_neg hy] at h'
        rcases List.mem_append.mp h' with h'' | h''
        · exact Or.inl h''
        · simp only [List.mem_singleton] at h''
          exact Or.inr (by simp [h''])
    · exact Or.inr (List.mem_cons_of_mem y h')

lemma head?_dedupFirst (l : List String) : (dedupFirst l).head? = l.head? := by
  cases l with
  | nil => rfl
  | cons x xs =>
    unfold dedupFirst
    rw [List.foldl_cons]
    have h0 : insertUnique [] x = [x] := by simp [insertUnique]
    rw [h0, foldl_insertUnique_eq]
    simp

lemma mem_candidates (env : EnvAccess) (x : String) (h : x ∈ candidates env) :
    ∃ r, x = posix_to_bcp47 r := by
  unfold candidates languageContribution singleContribution at h
  rcases List.mem_append.mp h with h | h
  · rcases List.mem_append.mp h with h | h
    · rcases List.mem_append.mp h with h | h
      · cases hL : (env LANGUAGE).filter (fun val => !val.isEmpty) with
        | none => rw [hL] at h; simp at h
        | some val =>
          rw [hL] at h
          obtain ⟨r, _, hr⟩ := List.mem_map.mp h
          exact ⟨r, hr.symm⟩
      · cases hA : (env LC_ALL).filter (fun val => !val.isEmpty) with
        | none => rw [hA] at h; simp at h
        | some val =>
          rw [hA] at h
          simp only [List.mem_singleton] at h
          exact ⟨val, h⟩
    · cases hM : (env LC_MESSAGES).filter (fun val => !val.isEmpty) with
      | none => rw [hM] at h; simp at h
      | some val =>
        rw [hM] at h
        simp only [List.mem_singleton] at h
        exact ⟨val, h⟩
  · cases hN : (env LANG).filter (fun val => !val.isEmpty) with
    | none => rw [hN] at h; simp at h
    | some val =>
      rw [hN] at h
      simp only [List.mem_singleton] at h
      exact ⟨val, h⟩

lemma candidates_congr (env1 env2 : EnvAccess)
    (h : ∀ k ∈ [LANGUAGE, LC_ALL, LC_MESSAGES, LANG],
      (env1 k).filter (fun val => !val.isEmpty) = (env2 k).filter (fun val => !val.isEmpty)) :
    candidates env1 = candidates env2 := by
  unfold candidates languageContribution singleContribution
  rw [h LANGUAGE (by simp), h LC_ALL (by simp), h LC_MESSAGES (by simp), h LANG (by simp)]

lemma candidates_nil (env : EnvAccess)
    (h : ∀ k ∈ [LANGUAGE, LC_ALL, LC_MESSAGES, LANG], env k = none ∨ env k = some ("")) :
    candidates env = [] := by
  have hf : ∀ k ∈ [LANGUAGE, LC_ALL, LC_MESSAGES, LANG],
      (env k).filter (fun val => !val.isEmpty) = none := by
    intro k hk
    rcases h k hk with h' | h' <;> rw [h'] <;> rfl
  unfold candidates languageContribution singleContribution
  rw [hf LANGUAGE (by simp), hf LC_ALL (by simp), hf LC_MESSAGES (by simp), hf LANG (by simp)]
  rfl

/-! The claim theorems about the resolver. -/

/-- C1: the resolver consults `LANGUAGE` (its value split on `':'`, the
sub-values keeping their relative order), then `LC_ALL`, then
`LC_MESSAGES`, then `LANG`; each contributed value is normalized with
`posix_to_bcp47` and appended to the output in exactly that traversal
order. Formally, `_get` equals first-seen deduplication of the candidate
list built by that traversal. -/
theorem resolver_precedence_traversal (env : EnvAccess) :
    _get env = dedupFirst (candidates env) :=
  get_eq_dedupFirst env

/-- C3: the resolver's output has no duplicate strings, and each tag
stands at the position of its first sighting: the output is exactly the
first-seen filtering (`keepFirst`) of the traversal's candidate list, so a
later sighting of an already-present tag changes nothing. -/
theorem resolver_nodup_first_seen (env : EnvAccess) :
    (_get env).Nodup ∧ _get env = keepFirst (candidates env) := by
  constructor
  · rw [get_eq_dedupFirst]
    exact nodup_foldl_insertUnique (candidates env) [] List.nodup_nil
  · rw [get_eq_dedupFirst]
    unfold dedupFirst keepFirst
    simpa using foldl_insertUnique_eq (candidates env) []

/-- Counterexample to C4: with `LANGUAGE="en_US:"`, the trailing empty
sub-value is not skipped; it is normalized to the empty string and
emitted, so the resolver's output contains an empty-string entry. -/
def envC4 : EnvAccess := setVar emptyEnv LANGUAGE (some ("en_US:"))

/-- C4 counterexample: the resolver does emit an empty-string entry. -/
theorem resolver_emits_empty_entry : ("") ∈ _get envC4 := by decide

/-- C4 amended: a consulted variable whose whole value is the empty
string contributes nothing — setting any variable to `""` is
indistinguishable from leaving it unset. (Empty colon-delimited
sub-values of `LANGUAGE` are, however, not skipped: they normalize to the
empty string and can be emitted, as the counterexample shows.) -/
theorem empty_value_contributes_nothing (env : EnvAccess) (key : String) :
    _get (setVar env key (some (""))) = _get (setVar env key none) := by
  rw [get_eq_dedupFirst, get_eq_dedupFirst]
  refine congrArg dedupFirst (candidates_congr _ _ ?_)
  intro k _
  unfold setVar
  by_cases hk : k = key
  · rw [if_pos hk, if_pos hk]
    rfl
  · rw [if_neg hk, if_neg hk]

/-- Counterexample environment for C5: `LC_CTYPE="de_DE"`, `LANG="en_US"`,
everything else unset. -/
def envC5 : EnvAccess := setVar (setVar emptyEnv ("LC_CTYPE") (some ("de_DE"))) LANG (some ("en_US"))

/-- C5 counterexample: the claimed scheme (`LC_ALL` > `LC_CTYPE` > `LANG`)
would return "de-DE" here, but the code's single-best result — the head of
the resolver's list — is "en-US": `LC_CTYPE` is never consulted. -/
theorem single_best_scheme_cex :
    (_get envC5).head? = some ("en-US") ∧ resolve_best_claimed envC5 = some ("de-DE") ∧
      (_get envC5).head? ≠ resolve_best_claimed envC5 := by decide

/-- C5 amended: the unix single-best resolution (the head of `_get`'s
output) consults `LANGUAGE` (its first colon-separated sub-value winning),
then `LC_ALL`, then `LC_MESSAGES`, then `LANG`; it returns the
normalization of the first value contributed, and nothing when every one
of these variables is absent or empty. -/
theorem resolve_best_unix (env : EnvAccess) :
    (_get env).head? = (candidates env).head? ∧
      ((∀ k ∈ [LANGUAGE, LC_ALL, LC_MESSAGES, LANG], env k = none ∨ env k = some ("")) →
        (_get env).head? = none) := by
  constructor
  · rw [get_eq_dedupFirst]
    exact head?_dedupFirst (candidates env)
  · intro h
    rw [get_eq_dedupFirst, candidates_nil env h]
    rfl

/-- Witness for C5's amended theorem, at the empty environment. -/
theorem resolve_best_unix_witness :
    (_get emptyEnv).head? = (candidates emptyEnv).head? ∧ (_get emptyEnv).head? = none :=
  ⟨(resolve_best_unix emptyEnv).1,
    (resolve_best_unix emptyEnv).2 (fun _ _ => Or.inl rfl)⟩

/-- Case-preservation environment for C7: `LANGUAGE="en_US"`,
`LC_ALL="EN_US"`. -/
def envC7 : EnvAccess := setVar (setVar emptyEnv LANGUAGE (some ("en_US"))) LC_ALL (some ("EN_US"))

/-- C7: normalization performs no case-folding ("EN_US" becomes "EN-US"),
and deduplication is case-sensitive: "en-US" and "EN-US" appear together
in one resolved list as distinct entries. -/
theorem case_preserved_end_to_end :
    posix_to_bcp47 ("EN_US") = ("EN-US") ∧ _get envC7 = ["en-US", "EN-US"] := by decide

/-- C8: resolution never fails: when no consulted variable holds a
non-empty value the resolver returns the empty list, and the single-best
result (the head of that list) is correspondingly absent. The embedding is
a total function, mirroring the Rust code's lack of any error path. -/
theorem resolver_total_empty (env : EnvAccess)
    (h : ∀ k ∈ [LANGUAGE, LC_ALL, LC_MESSAGES, LANG], env k = none ∨ env k = some ("")) :
    _get env = [] ∧ (_get env).head? = none := by
  have he : _get env = [] := by
    rw [get_eq_dedupFirst, candidates_nil env h]
    rfl
  exact ⟨he, by rw [he]; rfl⟩

/-- Every variable set to the empty string. -/
def envAllEmpty : EnvAccess := fun _ => some ("")

/-- Witness for C8 at a concrete all-empty environment. -/
theorem resolver_total_empty_witness :
    _get envAllEmpty = [] ∧ (_get envAllEmpty).head? = none :=
  resolver_total_empty envAllEmpty (fun _ _ => Or.inr rfl)

/-- C9: every element of the resolver's output has passed through
`posix_to_bcp47`, so it contains no `'.'`, `'@'` or `'_'` character. -/
theorem resolver_output_no_special (env : EnvAccess) (x : String) (hx : x ∈ _get env) :
    x.data.all goodCh = true := by
  rw [get_eq_dedupFirst] at hx
  unfold dedupFirst at hx
  rcases mem_foldl_insertUnique (candidates env) [] x hx with h | h
  · simp at h
  · obtain ⟨r, rfl⟩ := mem_candidates env x h
    rw [posix_data, List.all_eq_true]
    intro c hc
    obtain ⟨d, hd, rfl⟩ := List.mem_map.mp hc
    exact goodCh_replCh d (List.mem_takeWhile_imp hd)

/-- Environment for the C9 witness: `LANG="en_US.UTF-8"`. -/
def envC9 : EnvAccess := setVar emptyEnv LANG (some ("en_US.UTF-8"))

/-- Witness for C9 at a concrete environment and output element. -/
theorem resolver_output_no_special_witness : ("en-US").data.all goodCh = true :=
  resolver_output_no_special envC9 ("en-US") (by decide)

/-- C10: on a target with no platform provider, the public entry point
returns `none`: the fallback provider is the constant `none` function and
`get_locale` merely forwards it, independent of any process state. -/
theorem get_locale_no_provider_none : get_locale_fallback = none := rfl
